import Mathlib

/-!
Verification of the crossword CSP solver (src/project3/crossword/generate.py).

The solver operates on a puzzle model (variables, overlaps, neighbors) built
by a companion module that is not part of the provided sources; that model is
therefore reconstructed here from the specification (marked below).  All
solver operations (`enforce_node_consistency`, `revise`, `ac3`, `consistent`,
`select_unassigned_variable`, `order_domain_values`, `backtrack`) are
translated from the Python source.  Python sets of words are embedded as
duplicate-free lists, the mutable domain dictionary as a function from
variables to word lists that every operation threads explicitly, and Python
string indexing `w[k]` as `List.getD` (the solver only indexes in range for
well-formed puzzles).
-/

namespace CrosswordCSP

/-- Modelled from the spec: a variable slot runs ACROSS or DOWN. -/
inductive Direction where
  | across
  | down
deriving DecidableEq, Repr

/-- Modelled from the spec: a Variable is identified by starting row `i`,
starting column `j`, its direction and its length; equality is by value. -/
structure Variable where
  i : Nat
  j : Nat
  dir : Direction
  length : Nat
deriving DecidableEq, Repr

/-- A candidate word. -/
abbrev Word := List Char

/-- The Domain Store: each variable's current candidate word list. -/
abbrev Domains := Variable → List Word

/-- A (partial) assignment, in insertion order, like a Python dict. -/
abbrev Assignment := List (Variable × Word)

/-- An ordered arc of the AC-3 worklist. -/
abbrev Arc := Variable × Variable

/-- Modelled from the spec: the Puzzle Model (the `Crossword` class is not in
the provided sources).  `variables` is the set of slots, `overlaps x y` is
`none` when `x` and `y` share no cell and `some (k, l)` when character `k` of
`x`'s word must equal character `l` of `y`'s word. -/
structure Crossword where
  vars : List Variable
  overlaps : Variable → Variable → Option (Nat × Nat)

/-- Modelled from the spec: `neighbors v` is the set of variables overlapping
`v`, derived from `overlaps`. -/
def Crossword.neighbors (cw : Crossword) (v : Variable) : List Variable :=
  cw.vars.filter (fun u => !(decide (u = v)) && (cw.overlaps v u).isSome)

/-- The overlap table of a well-formed puzzle is symmetric:
`overlaps y x` is `overlaps x y` with the two offsets swapped.  `SymmOn`
states this for all variables drawn from a given list. -/
def SymmOn (cw : Crossword) (vs : List Variable) : Prop :=
  ∀ x ∈ vs, ∀ y ∈ vs, cw.overlaps y x = (cw.overlaps x y).map (fun p => (p.2, p.1))

instance (cw : Crossword) (vs : List Variable) : Decidable (SymmOn cw vs) :=
  decidable_of_iff
    (∀ x ∈ vs, ∀ y ∈ vs, cw.overlaps y x = (cw.overlaps x y).map (fun p => (p.2, p.1)))
    Iff.rfl

/-- Python `w[k]` (the solver only indexes in range on well-formed input). -/
def charAt (w : Word) (k : Nat) : Char := w.getD k '?'

/-- `self.domains[x] = dom` on the domain dictionary. -/
def setDomain (doms : Domains) (x : Variable) (dom : List Word) : Domains :=
  fun v => if v = x then dom else doms v

/-- The `for word in words_to_remove: domain.remove(word)` loops: removing a
collection of words from a (duplicate-free) domain. -/
def removeWords (dom : List Word) (toRemove : List Word) : List Word :=
  dom.filter (fun w => !(decide (w ∈ toRemove)))

/-- Body of the `enforce_node_consistency` loop for one variable: collect the
words whose length differs from the variable's length, then remove them. -/
def enforceStep (d : Domains) (v : Variable) : Domains :=
  let toRemove := (d v).filter (fun w => !(decide (w.length = v.length)))
  if 0 < toRemove.length then setDomain d v (removeWords (d v) toRemove) else d

/-- `CrosswordCreator.enforce_node_consistency`: for every variable, remove
from its domain the words whose length is not the variable's length. -/
def enforce_node_consistency (cw : Crossword) (doms : Domains) : Domains :=
  cw.vars.foldl enforceStep doms

/-- `CrosswordCreator.revise x y`: with no overlap return `false` and change
nothing; with overlap `(k, l)` collect every word of `domains[x]` having no
partner in `domains[y]` agreeing at the overlap (the `flag` loop), remove the
collected words, and return whether anything was removed. -/
def revise (cw : Crossword) (doms : Domains) (x y : Variable) : Bool × Domains :=
  match cw.overlaps x y with
  | none => (false, doms)
  | some kl =>
    let toRemove := (doms x).filter
      (fun wx => !((doms y).any (fun wy => charAt wx kl.1 == charAt wy kl.2)))
    if 0 < toRemove.length then (true, setDomain doms x (removeWords (doms x) toRemove))
    else (false, doms)

/-- First loop of `CrosswordCreator.consistent`: walking the assigned words
and rejecting a word already seen, i.e. the words are pairwise distinct. -/
def allDistinct : List Word → Bool
  | [] => true
  | w :: ws => !(decide (w ∈ ws)) && allDistinct ws

/-- One comparison of the pair loop of `consistent`: entries whose variables
have a defined overlap must agree on the overlapping characters. -/
def overlapOk (cw : Crossword) (p q : Variable × Word) : Bool :=
  match cw.overlaps p.1 q.1 with
  | none => true
  | some kl => charAt p.2 kl.1 == charAt q.2 kl.2

/-- The `i < j` double loop of `consistent` over the assigned pairs. -/
def pairsConsistent (cw : Crossword) : Assignment → Bool
  | [] => true
  | p :: rest => rest.all (fun q => overlapOk cw p q) && pairsConsistent cw rest

/-- `CrosswordCreator.consistent`: assigned words pairwise distinct, every
word of the length its variable requires, and no overlap conflict (the source
returns `True` directly for one-entry assignments before the pair loop). -/
def consistent (cw : Crossword) (a : Assignment) : Bool :=
  allDistinct (a.map Prod.snd) &&
  a.all (fun p => decide (p.1.length = p.2.length)) &&
  (if a.length = 1 then true else pairsConsistent cw a)

/-- `CrosswordCreator.assignment_complete`: the assignment has as many
entries as the puzzle has variables. -/
def assignment_complete (cw : Crossword) (a : Assignment) : Bool :=
  decide (a.length = cw.vars.length)

/-- Python's `sorted(..., key=lambda item: item[1])` compares the second
components; this is the corresponding order on pairs. -/
def sndLe {α : Type} (p q : α × Nat) : Prop := p.2 ≤ q.2

instance {α : Type} : DecidableRel (@sndLe α) := fun p q => Nat.decLe p.2 q.2

instance {α : Type} : IsTotal (α × Nat) sndLe := ⟨fun p q => Nat.le_total p.2 q.2⟩

instance {α : Type} : IsTrans (α × Nat) sndLe := ⟨fun _ _ _ hpq hqr => Nat.le_trans hpq hqr⟩

/-- The variables not yet in the assignment, in puzzle order. -/
def unassignedVars (cw : Crossword) (a : Assignment) : List Variable :=
  cw.vars.filter (fun v => !(decide (v ∈ a.map Prod.fst)))

/-- `CrosswordCreator.select_unassigned_variable`: map every unassigned
variable to its domain size, sort ascending (Python's stable `sorted` is
embedded as a stable insertion sort), keep the variables tied at the minimum;
a single tied variable is returned directly, otherwise the tied variables are
sorted ascending by degree and the last one is returned.  Returns `none`
exactly when no variable is unassigned (where Python would raise). -/
def select_unassigned_variable (cw : Crossword) (doms : Domains) (a : Assignment) :
    Option Variable :=
  let wordsInVar := (unassignedVars cw a).map (fun v => (v, (doms v).length))
  match List.insertionSort sndLe wordsInVar with
  | [] => none
  | first :: rest =>
    let tied := ((first :: rest).filter (fun p => decide (p.2 = first.2))).map Prod.fst
    if tied.length = 1 then tied.head?
    else
      let degrees := tied.map (fun v => (v, (cw.neighbors v).length))
      ((List.insertionSort sndLe degrees).map Prod.fst).getLast?

/-- The `words_eliminated` counter of `order_domain_values`: how many words
the candidate `w` would eliminate from the domains of unassigned variables
overlapping `var`. -/
def elimScore (cw : Crossword) (doms : Domains) (a : Assignment) (var : Variable)
    (w : Word) : Nat :=
  cw.vars.foldl
    (fun acc u =>
      if u ≠ var ∧ ¬ u ∈ a.map Prod.fst then
        match cw.overlaps var u with
        | some kl => acc + (doms u).countP (fun wy => !(charAt w kl.1 == charAt wy kl.2))
        | none => acc
      else acc) 0

/-- `CrosswordCreator.order_domain_values`: a one-word domain is returned
as is; otherwise the domain is sorted ascending by elimination count. -/
def order_domain_values (cw : Crossword) (doms : Domains) (var : Variable)
    (a : Assignment) : List Word :=
  if (doms var).length = 1 then doms var
  else
    (List.insertionSort sndLe
      ((doms var).map (fun w => (w, elimScore cw doms a var w)))).map Prod.fst

/-- The value loop of `backtrack`: extend the assignment by a fresh copy with
`var` bound to the next value, keep the first recursive success.  The domain
store is threaded to record that the search phase only reads it. -/
def tryVals (cw : Crossword) (next : Assignment → Domains → Option Assignment × Domains)
    (a : Assignment) (var : Variable) :
    List Word → Domains → Option Assignment × Domains
  | [], doms => (none, doms)
  | value :: rest, doms =>
    let na := a ++ [(var, value)]
    if consistent cw na then
      match next na doms with
      | (some r, doms2) => (some r, doms2)
      | (none, doms2) => tryVals cw next a var rest doms2
    else tryVals cw next a var rest doms

/-- `CrosswordCreator.backtrack`, with fuel bounding the recursion depth.
Every recursive call binds one more unassigned variable, so a fuel of
`cw.vars.length + 1` (supplied by the `backtrack` wrapper) is never
exhausted. -/
def backtrackFuel (cw : Crossword) : Nat → Assignment → Domains → Option Assignment × Domains
  | 0, _, doms => (none, doms)
  | fuel + 1, a, doms =>
    if assignment_complete cw a then (some a, doms)
    else
      match select_unassigned_variable cw doms a with
      | none => (none, doms)
      | some var =>
        tryVals cw (fun a2 d2 => backtrackFuel cw fuel a2 d2) a var
          (order_domain_values cw doms var a) doms

/-- `backtrack` as called by `solve`: search from a partial assignment. -/
def backtrack (cw : Crossword) (a : Assignment) (doms : Domains) :
    Option Assignment × Domains :=
  backtrackFuel cw (cw.vars.length + 1) a doms

/-- The re-enqueue block of `ac3` after `revise x y` removed values: for each
neighbor of `x` other than `y`, append `(x, neighbor)` — note the
orientation — unless either orientation is already queued. -/
def enqueueArcs (cw : Crossword) (x y : Variable) (q : List Arc) : List Arc :=
  ((cw.neighbors x).filter (fun z => !(decide (z = y)))).foldl
    (fun q2 z => if (x, z) ∈ q2 ∨ (z, x) ∈ q2 then q2 else q2 ++ [(x, z)]) q

/-- The default initial queue of `ac3`: one direction per unordered neighbor
pair (`(var, neighbor)` is appended only when `(neighbor, var)` is absent). -/
def initialArcs (cw : Crossword) : List Arc :=
  cw.vars.foldl
    (fun acc v =>
      (cw.neighbors v).foldl
        (fun acc2 n => if (n, v) ∈ acc2 then acc2 else acc2 ++ [(v, n)]) acc)
    []

/-- The worklist loop of `ac3`: pop the front arc, revise, fail when a domain
empties, re-enqueue dependent arcs when values were removed.  `fuel` bounds
the number of iterations; `none` means the (always sufficient) bound supplied
by the `ac3` wrapper was exceeded. -/
def ac3Fuel (cw : Crossword) : Nat → List Arc → Domains → Option (Bool × Domains)
  | _, [], doms => some (true, doms)
  | 0, _ :: _, _ => none
  | fuel + 1, (x, y) :: rest, doms =>
    match revise cw doms x y with
    | (true, doms2) =>
      if (doms2 x).length = 0 then some (false, doms2)
      else ac3Fuel cw fuel (enqueueArcs cw x y rest) doms2
    | (false, _) => ac3Fuel cw fuel rest doms

/-- `CrosswordCreator.ac3`: start from the supplied arcs, or from the default
initial queue when `arcs` is `none`.  The fuel exceeds the possible number of
loop iterations: every iteration pops one arc, and arcs are pushed only when
a revision removed at least one word. -/
def ac3 (cw : Crossword) (doms : Domains) (arcs : Option (List Arc)) :
    Option (Bool × Domains) :=
  let arcsList := match arcs with | none => initialArcs cw | some l => l
  ac3Fuel cw
    (arcsList.length +
      ((cw.vars.map (fun v => (doms v).length)).sum + 1) * (cw.vars.length + 1) + 1)
    arcsList doms

/-- `CrosswordCreator.solve`: node consistency, then `ac3` (its Boolean
result is discarded by the source), then backtracking from the empty
assignment. -/
def solve (cw : Crossword) (doms : Domains) : Option Assignment :=
  let d1 := enforce_node_consistency cw doms
  match ac3 cw d1 none with
  | some (_, d2) => (backtrack cw [] d2).1
  | none => none

/-! Concrete puzzles used to evaluate the definitions. -/

/-- A slot of length 1 at the origin. -/
def varA : Variable := ⟨0, 0, Direction.across, 1⟩

/-- A second slot of length 1. -/
def varB : Variable := ⟨1, 0, Direction.across, 1⟩

/-- A third slot of length 1. -/
def varC : Variable := ⟨2, 0, Direction.across, 1⟩

/-- A slot of length 3. -/
def varD : Variable := ⟨0, 0, Direction.down, 3⟩

/-- The word "a". -/
def wordA : Word := ['a']

/-- The word "b". -/
def wordB : Word := ['b']

/-- The word "cat". -/
def wordCat : Word := ['c', 'a', 't']

/-- Two length-1 slots sharing their only cell. -/
def cw2 : Crossword :=
  ⟨[varA, varB], fun x y =>
    if x = varA ∧ y = varB then some (0, 0)
    else if x = varB ∧ y = varA then some (0, 0) else none⟩

/-- Domains for `cw2`: `varA` can only be "a", `varB` can be "a" or "b". -/
def doms2 : Domains := fun v => if v = varA then [wordA] else [wordA, wordB]

/-- Three length-1 slots; `varA` overlaps both `varB` and `varC`. -/
def cw3 : Crossword :=
  ⟨[varA, varB, varC], fun x y =>
    if (x = varA ∧ y = varB) ∨ (x = varB ∧ y = varA) then some (0, 0)
    else if (x = varA ∧ y = varC) ∨ (x = varC ∧ y = varA) then some (0, 0)
    else none⟩

/-- Domains for `cw3`: `varA` can be "a" or "b", the others only "a". -/
def doms3 : Domains := fun v => if v = varA then [wordA, wordB] else [wordA]

/-- A puzzle with a single length-3 slot and no overlaps. -/
def cw1 : Crossword := ⟨[varD], fun _ _ => none⟩

/-- Domain for `cw1`: only the word "cat". -/
def doms1 : Domains := fun _ => [wordCat]

/-- A two-entry assignment on `cw2`. -/
def assign2 : Assignment := [(varA, wordA), (varB, wordB)]

/-- Well-formedness of an assignment as a mapping: distinct keys, all of them
variables of the puzzle.  It holds for the empty assignment and is preserved
by every extension performed during backtracking. -/
def goodKeys (cw : Crossword) (a : Assignment) : Prop :=
  (a.map Prod.fst).Nodup ∧ ∀ p ∈ a, p.1 ∈ cw.vars

/-! Lemmas about the node-consistency pass. -/

theorem enforceStep_self (d : Domains) (v : Variable) :
    enforceStep d v v = (d v).filter (fun w => decide (w.length = v.length)) := by
  unfold enforceStep
  by_cases h : 0 < ((d v).filter (fun w => !(decide (w.length = v.length)))).length
  · rw [if_pos h]
    show setDomain d v _ v = _
    unfold setDomain
    rw [if_pos rfl]
    unfold removeWords
    refine List.filter_congr ?_
    intro w hw
    by_cases hl : w.length = v.length <;> simp [List.mem_filter, hw, hl]
  · rw [if_neg h]
    have hnil : (d v).filter (fun w => !(decide (w.length = v.length))) = [] := by
      cases heq : (d v).filter (fun w => !(decide (w.length = v.length))) with
      | nil => rfl
      | cons x xs => rw [heq] at h; simp at h
    refine Eq.symm (List.filter_eq_self.2 ?_)
    intro w hw
    by_contra hcon
    have : w ∈ (d v).filter (fun w => !(decide (w.length = v.length))) := by
      simp only [List.mem_filter]
      refine ⟨hw, ?_⟩
      simpa using hcon
    rw [hnil] at this
    exact absurd this (List.not_mem_nil w)

theorem enforceStep_frame (d : Domains) (v u : Variable) (h : u ≠ v) :
    enforceStep d v u = d u := by
  unfold enforceStep
  split
  · show setDomain d v _ u = d u
    unfold setDomain
    rw [if_neg h]
  · rfl

theorem enforce_fold_eval (l : List Variable) (d : Domains) (v : Variable) :
    (l.foldl enforceStep d) v =
      if v ∈ l then (d v).filter (fun w => decide (w.length = v.length)) else d v := by
  induction l generalizing d with
  | nil => simp
  | cons x l ih =>
    simp only [List.foldl_cons]
    rw [ih]
    by_cases hx : v = x
    · subst hx
      rw [enforceStep_self]
      by_cases hv : v ∈ l
      · simp [hv, List.filter_filter]
      · simp [hv]
    · rw [enforceStep_frame d x v hx]
      by_cases hv : v ∈ l
      · simp [hv, List.mem_cons]
      · have : ¬ v ∈ x :: l := by
          simp [List.mem_cons, hx, hv]
        simp [hv, this]

theorem enforce_eval (cw : Crossword) (doms : Domains) (v : Variable) :
    enforce_node_consistency cw doms v =
      if v ∈ cw.vars then (doms v).filter (fun w => decide (w.length = v.length))
      else doms v :=
  enforce_fold_eval cw.vars doms v

/-- C6: after `enforce_node_consistency`, the domain of every variable of the
puzzle holds exactly its previous words of matching length (so nothing of
matching length was removed and everything else was), and running the pass a
second time changes no domain. -/
theorem enforce_node_consistency_spec (cw : Crossword) (doms : Domains) (v : Variable)
    (w : Word) (hv : v ∈ cw.vars) :
    (w ∈ enforce_node_consistency cw doms v ↔ (w ∈ doms v ∧ w.length = v.length)) ∧
    enforce_node_consistency cw (enforce_node_consistency cw doms) =
      enforce_node_consistency cw doms := by
  constructor
  · rw [enforce_eval, if_pos hv]
    simp [List.mem_filter]
  · funext u
    rw [enforce_eval cw (enforce_node_consistency cw doms) u, enforce_eval cw doms u]
    by_cases hu : u ∈ cw.vars
    · rw [if_pos hu, if_pos hu, List.filter_filter]
      simp
    · rw [if_neg hu, if_neg hu]

/-- Witness for C6 at a concrete puzzle, domain store, variable and word. -/
theorem enforce_node_consistency_spec_witness :
    ((wordA ∈ enforce_node_consistency cw2 doms2 varA ↔
      (wordA ∈ doms2 varA ∧ wordA.length = varA.length)) ∧
     enforce_node_consistency cw2 (enforce_node_consistency cw2 doms2) =
       enforce_node_consistency cw2 doms2) :=
  enforce_node_consistency_spec cw2 doms2 varA wordA (by decide)

/-! Lemmas about the arc-revision step. -/

theorem setDomain_self (doms : Domains) (x : Variable) (dom : List Word) :
    setDomain doms x dom x = dom := if_pos rfl

theorem setDomain_frame (doms : Domains) (x : Variable) (dom : List Word) (v : Variable)
    (h : v ≠ x) : setDomain doms x dom v = doms v := if_neg h

/-- C4: for distinct variables, `revise x y` with no overlap returns `false`
and changes nothing; with overlap `(k, l)` it leaves in `domains[x]` exactly
the words having a supporting word in `domains[y]`, touches no other domain,
leaves only supported words, and returns `true` iff it removed a word. -/
theorem revise_spec (cw : Crossword) (doms : Domains) (x y : Variable) (_hxy : x ≠ y) :
    (cw.overlaps x y = none → revise cw doms x y = (false, doms)) ∧
    (∀ k l, cw.overlaps x y = some (k, l) →
      ((revise cw doms x y).2 x =
        (doms x).filter (fun wx => (doms y).any (fun wy => charAt wx k == charAt wy l)) ∧
       (∀ v, v ≠ x → (revise cw doms x y).2 v = doms v) ∧
       (∀ wx, wx ∈ (revise cw doms x y).2 x →
          ∃ wy ∈ doms y, charAt wx k = charAt wy l) ∧
       ((revise cw doms x y).1 = true ↔
          ∃ wx, wx ∈ doms x ∧ wx ∉ (revise cw doms x y).2 x))) := by
  constructor
  · intro hnone
    unfold revise
    rw [hnone]
  · intro k l hov
    have hred : revise cw doms x y =
        (if 0 < ((doms x).filter
            (fun wx => !((doms y).any (fun wy => charAt wx k == charAt wy l)))).length
         then (true, setDomain doms x (removeWords (doms x) ((doms x).filter
            (fun wx => !((doms y).any (fun wy => charAt wx k == charAt wy l))))))
         else (false, doms)) := by
      simp only [revise, hov]
    have hrem : removeWords (doms x) ((doms x).filter
          (fun wx => !((doms y).any (fun wy => charAt wx k == charAt wy l)))) =
        (doms x).filter (fun wx => (doms y).any (fun wy => charAt wx k == charAt wy l)) := by
      unfold removeWords
      refine List.filter_congr ?_
      intro w hw
      cases ha : (doms y).any (fun wy => charAt w k == charAt wy l) <;>
        simp [List.mem_filter, hw, ha]
    by_cases h : 0 < ((doms x).filter
        (fun wx => !((doms y).any (fun wy => charAt wx k == charAt wy l)))).length
    · rw [hred, if_pos h]
      dsimp only
      refine ⟨by rw [setDomain_self, hrem], fun v hv => setDomain_frame doms x _ v hv, ?_, ?_⟩
      · intro wx hwx
        rw [setDomain_self, hrem] at hwx
        rcases List.mem_filter.1 hwx with ⟨_, hany⟩
        rcases List.any_eq_true.1 hany with ⟨wy, hwy, hbeq⟩
        exact ⟨wy, hwy, by simpa using hbeq⟩
      · rw [setDomain_self, hrem]
        constructor
        · intro _
          rcases List.length_pos_iff_exists_mem.1 h with ⟨wx, hwx⟩
          rcases List.mem_filter.1 hwx with ⟨hmem, hne⟩
          refine ⟨wx, hmem, ?_⟩
          intro hcon
          rcases List.mem_filter.1 hcon with ⟨_, hany⟩
          rw [hany] at hne
          simp at hne
        · intro _
          rfl
    · rw [hred, if_neg h]
      dsimp only
      have hall : ∀ w ∈ doms x, (doms y).any (fun wy => charAt w k == charAt wy l) = true := by
        intro w hw
        have hnil : (doms x).filter
            (fun wx => !((doms y).any (fun wy => charAt wx k == charAt wy l))) = [] := by
          cases heq : (doms x).filter
              (fun wx => !((doms y).any (fun wy => charAt wx k == charAt wy l))) with
          | nil => rfl
          | cons z zs => rw [heq] at h; simp at h
        have := List.filter_eq_nil_iff.1 hnil w hw
        simpa using this
      refine ⟨Eq.symm (List.filter_eq_self.2 hall), fun v _ => rfl, ?_, ?_⟩
      · intro wx hwx
        rcases List.any_eq_true.1 (hall wx hwx) with ⟨wy, hwy, hbeq⟩
        exact ⟨wy, hwy, by simpa using hbeq⟩
      · constructor
        · intro hfalse
          exact absurd hfalse (by simp)
        · rintro ⟨wx, hmem, hnot⟩
          exact absurd hmem hnot

/-- Witness for C4 at a concrete puzzle, domain store and overlapping pair. -/
theorem revise_spec_witness :
    ((cw3.overlaps varA varB = none → revise cw3 doms3 varA varB = (false, doms3)) ∧
     (∀ k l, cw3.overlaps varA varB = some (k, l) →
       ((revise cw3 doms3 varA varB).2 varA =
         (doms3 varA).filter
           (fun wx => (doms3 varB).any (fun wy => charAt wx k == charAt wy l)) ∧
        (∀ v, v ≠ varA → (revise cw3 doms3 varA varB).2 v = doms3 v) ∧
        (∀ wx, wx ∈ (revise cw3 doms3 varA varB).2 varA →
           ∃ wy ∈ doms3 varB, charAt wx k = charAt wy l) ∧
        ((revise cw3 doms3 varA varB).1 = true ↔
           ∃ wx, wx ∈ doms3 varA ∧ wx ∉ (revise cw3 doms3 varA varB).2 varA)))) :=
  revise_spec cw3 doms3 varA varB (by decide)

/-! Lemmas about the assignment validator. -/

theorem allDistinct_iff (l : List Word) :
    allDistinct l = true ↔ l.Pairwise (fun w1 w2 => w1 ≠ w2) := by
  induction l with
  | nil => simp [allDistinct]
  | cons w ws ih =>
    simp only [allDistinct, Bool.and_eq_true, List.pairwise_cons, ih]
    constructor
    · rintro ⟨hnot, hpw⟩
      refine ⟨?_, hpw⟩
      intro y hy hwy
      subst hwy
      simp at hnot
      exact hnot hy
    · rintro ⟨hne, hpw⟩
      refine ⟨?_, hpw⟩
      simp only [Bool.not_eq_true']
      by_contra hcon
      simp only [Bool.not_eq_false, decide_eq_true_eq] at hcon
      exact hne w hcon rfl

theorem pairsConsistent_iff (cw : Crossword) (a : Assignment) :
    pairsConsistent cw a = true ↔ a.Pairwise (fun p q => overlapOk cw p q = true) := by
  induction a with
  | nil => simp [pairsConsistent]
  | cons p rest ih =>
    simp [pairsConsistent, List.pairwise_cons, ih, List.all_eq_true]

theorem consistent_iff_core (cw : Crossword) (a : Assignment) :
    consistent cw a = true ↔
      ((a.map Prod.snd).Pairwise (fun w1 w2 => w1 ≠ w2) ∧
       (∀ p ∈ a, p.1.length = p.2.length) ∧
       a.Pairwise (fun p q => overlapOk cw p q = true)) := by
  unfold consistent
  by_cases hlen : a.length = 1
  · rcases List.length_eq_one.1 hlen with ⟨p, hp⟩
    subst hp
    simp [allDistinct, pairsConsistent]
  · rw [if_neg hlen]
    simp only [Bool.and_eq_true, allDistinct_iff, pairsConsistent_iff, List.all_eq_true,
      decide_eq_true_eq, Prod.forall, ne_eq]
    exact and_assoc

/-- Transfer of the one-sided pair loop to all ordered pairs, over an overlap
table that is symmetric on the assigned variables. -/
theorem pairwise_overlap_symm (cw : Crossword) (a : Assignment)
    (h1 : (a.map Prod.fst).Nodup) (h2 : SymmOn cw (a.map Prod.fst)) :
    a.Pairwise (fun p q => overlapOk cw p q = true) ↔
      (∀ p ∈ a, ∀ q ∈ a, p.1 ≠ q.1 → ∀ k l, cw.overlaps p.1 q.1 = some (k, l) →
        charAt p.2 k = charAt q.2 l) := by
  constructor
  · intro hpw p hp q hq hne k l hov
    have hsymmrel : Symmetric (fun p q : Variable × Word =>
        overlapOk cw p q = true ∨ overlapOk cw q p = true) := by
      intro u v huv
      exact huv.symm
    have hpw2 : a.Pairwise (fun p q : Variable × Word =>
        overlapOk cw p q = true ∨ overlapOk cw q p = true) :=
      hpw.imp Or.inl
    have hpqne : p ≠ q := by
      intro hcon
      rw [hcon] at hne
      exact hne rfl
    have hor := hpw2.forall hsymmrel hp hq hpqne
    rcases hor with hok | hok
    · unfold overlapOk at hok
      rw [hov] at hok
      simpa using hok
    · unfold overlapOk at hok
      have hyx : cw.overlaps q.1 p.1 = some (l, k) := by
        have := h2 p.1 (List.mem_map_of_mem Prod.fst hp) q.1 (List.mem_map_of_mem Prod.fst hq)
        rw [hov] at this
        simpa using this
      rw [hyx] at hok
      have heq : charAt q.2 l = charAt p.2 k := by simpa using hok
      exact heq.symm
  · intro hall
    induction a with
    | nil => exact List.Pairwise.nil
    | cons p rest ih =>
      simp only [List.map_cons, List.nodup_cons] at h1
      refine List.Pairwise.cons ?_ ?_
      · intro q hq
        have hne : p.1 ≠ q.1 := by
          intro hcon
          exact h1.1 (hcon ▸ List.mem_map_of_mem Prod.fst hq)
        unfold overlapOk
        cases hov : cw.overlaps p.1 q.1 with
        | none => rfl
        | some kl =>
          have := hall p (List.mem_cons_self p rest) q (List.mem_cons_of_mem p hq) hne
            kl.1 kl.2 (by rw [hov])
          simpa using this
      · refine ih h1.2 ?_ ?_
        · intro x hx y hy
          have hx2 : x ∈ (p :: rest).map Prod.fst := by
            simp only [List.map_cons]
            exact List.mem_cons_of_mem _ hx
          have hy2 : y ∈ (p :: rest).map Prod.fst := by
            simp only [List.map_cons]
            exact List.mem_cons_of_mem _ hy
          exact h2 x hx2 y hy2
        · intro x hx y hy
          exact hall x (List.mem_cons_of_mem p hx) y (List.mem_cons_of_mem p hy)

/-- C5: over a well-formed assignment (distinct keys, symmetric overlap
table on them), `consistent` returns `true` iff the assigned words are
pairwise distinct, every word has its variable's length, and every ordered
pair of assigned variables with a defined overlap agrees on the overlapping
characters; `consistent` is a pure function of its arguments. -/
theorem consistent_spec (cw : Crossword) (a : Assignment)
    (h1 : (a.map Prod.fst).Nodup) (h2 : SymmOn cw (a.map Prod.fst)) :
    consistent cw a = true ↔
      ((a.map Prod.snd).Pairwise (fun w1 w2 => w1 ≠ w2) ∧
       (∀ p ∈ a, p.2.length = p.1.length) ∧
       (∀ p ∈ a, ∀ q ∈ a, p.1 ≠ q.1 → ∀ k l, cw.overlaps p.1 q.1 = some (k, l) →
         charAt p.2 k = charAt q.2 l)) := by
  rw [consistent_iff_core]
  constructor
  · rintro ⟨hd, hl, hpw⟩
    exact ⟨hd, fun p hp => (hl p hp).symm, (pairwise_overlap_symm cw a h1 h2).1 hpw⟩
  · rintro ⟨hd, hl, hall⟩
    exact ⟨hd, fun p hp => (hl p hp).symm, (pairwise_overlap_symm cw a h1 h2).2 hall⟩

/-- Witness for C5 at a concrete puzzle and assignment. -/
theorem consistent_spec_witness :
    consistent cw2 assign2 = true ↔
      ((assign2.map Prod.snd).Pairwise (fun w1 w2 => w1 ≠ w2) ∧
       (∀ p ∈ assign2, p.2.length = p.1.length) ∧
       (∀ p ∈ assign2, ∀ q ∈ assign2, p.1 ≠ q.1 →
         ∀ k l, cw2.overlaps p.1 q.1 = some (k, l) →
           charAt p.2 k = charAt q.2 l)) :=
  consistent_spec cw2 assign2 (by decide) (by decide)

/-! Lemmas about the sorted worklists of the two search heuristics. -/

theorem sorted_sndLe_head_le {α : Type} (first : α × Nat) (rest : List (α × Nat))
    (hs : List.Sorted sndLe (first :: rest)) (p : α × Nat) (hp : p ∈ first :: rest) :
    first.2 ≤ p.2 := by
  rcases List.mem_cons.1 hp with rfl | hp2
  · exact Nat.le_refl _
  · exact List.rel_of_sorted_cons hs p hp2

theorem sorted_sndLe_le_getLast {α : Type} :
    ∀ (l : List (α × Nat)) (m : α × Nat), List.Sorted sndLe l → l.getLast? = some m →
      ∀ p ∈ l, p.2 ≤ m.2
  | [], _, _, hm, _, hp => absurd hp (List.not_mem_nil _)
  | [a], m, _, hm, p, hp => by
    simp only [List.getLast?_singleton, Option.some.injEq] at hm
    rcases List.mem_singleton.1 hp with rfl
    rw [hm]
  | a :: b :: t, m, hs, hm, p, hp => by
    rw [List.getLast?_cons_cons] at hm
    rcases List.mem_cons.1 hp with rfl | hp2
    · have hab : p.2 ≤ b.2 := List.rel_of_sorted_cons hs b (List.mem_cons_self b t)
      have hbm : b.2 ≤ m.2 :=
        sorted_sndLe_le_getLast (b :: t) m hs.of_cons hm b (List.mem_cons_self b t)
      exact Nat.le_trans hab hbm
    · exact sorted_sndLe_le_getLast (b :: t) m hs.of_cons hm p hp2

theorem unassignedVars_mem (cw : Crossword) (a : Assignment) (v : Variable) :
    v ∈ unassignedVars cw a ↔ (v ∈ cw.vars ∧ v ∉ a.map Prod.fst) := by
  unfold unassignedVars
  simp [List.mem_filter]

theorem select_eq (cw : Crossword) (doms : Domains) (a : Assignment) :
    select_unassigned_variable cw doms a =
      match List.insertionSort sndLe
          ((unassignedVars cw a).map (fun v => (v, (doms v).length))) with
      | [] => none
      | first :: rest =>
        if (((first :: rest).filter (fun p => decide (p.2 = first.2))).map Prod.fst).length = 1
        then (((first :: rest).filter (fun p => decide (p.2 = first.2))).map Prod.fst).head?
        else
          ((List.insertionSort sndLe
            ((((first :: rest).filter (fun p => decide (p.2 = first.2))).map Prod.fst).map
              (fun v => (v, (cw.neighbors v).length)))).map Prod.fst).getLast? := rfl

/-- C7: when at least one variable is unassigned, the selector returns an
unassigned variable of the puzzle whose domain size is minimal among the
unassigned variables, and of maximal degree among the unassigned variables
tied at that minimal size. -/
theorem select_unassigned_variable_spec (cw : Crossword) (doms : Domains) (a : Assignment)
    (hne : unassignedVars cw a ≠ []) :
    ∃ v, select_unassigned_variable cw doms a = some v ∧
      v ∈ cw.vars ∧ v ∉ a.map Prod.fst ∧
      (∀ u ∈ cw.vars, u ∉ a.map Prod.fst → (doms v).length ≤ (doms u).length) ∧
      (∀ u ∈ cw.vars, u ∉ a.map Prod.fst → (doms u).length = (doms v).length →
        (cw.neighbors u).length ≤ (cw.neighbors v).length) := by
  rw [select_eq]
  have hperm : List.Perm
      (List.insertionSort sndLe ((unassignedVars cw a).map (fun v => (v, (doms v).length))))
      ((unassignedVars cw a).map (fun v => (v, (doms v).length))) :=
    List.perm_insertionSort sndLe _
  have hsorted : List.Sorted sndLe (List.insertionSort sndLe
      ((unassignedVars cw a).map (fun v => (v, (doms v).length)))) :=
    List.sorted_insertionSort sndLe _
  cases hs : List.insertionSort sndLe
      ((unassignedVars cw a).map (fun v => (v, (doms v).length))) with
  | nil =>
    rw [hs] at hperm
    have : (unassignedVars cw a).map (fun v => (v, (doms v).length)) = [] :=
      (List.Perm.nil_eq hperm).symm
    exact absurd (List.map_eq_nil_iff.1 this) hne
  | cons first rest =>
    rw [hs] at hperm hsorted
    dsimp only
    -- membership in the sorted list is membership in the unassigned map
    have hmem : ∀ p : Variable × Nat, p ∈ first :: rest ↔
        ∃ u ∈ unassignedVars cw a, (u, (doms u).length) = p := by
      intro p
      rw [hperm.mem_iff]
      simp [List.mem_map]
    -- every unassigned variable appears with its domain size
    have hin : ∀ u ∈ unassignedVars cw a, (u, (doms u).length) ∈ first :: rest := by
      intro u hu
      exact (hmem _).2 ⟨u, hu, rfl⟩
    -- the head's count is the minimum over unassigned variables
    have hmin : ∀ u ∈ unassignedVars cw a, first.2 ≤ (doms u).length := by
      intro u hu
      exact sorted_sndLe_head_le first rest hsorted _ (hin u hu)
    -- characterization of the tied list
    have htied1 : ∀ v, v ∈ ((first :: rest).filter
        (fun p => decide (p.2 = first.2))).map Prod.fst →
        v ∈ unassignedVars cw a ∧ (doms v).length = first.2 := by
      intro v hv
      rcases List.mem_map.1 hv with ⟨p, hpf, hpv⟩
      rcases List.mem_filter.1 hpf with ⟨hpmem, hpeq⟩
      rcases (hmem p).1 hpmem with ⟨u, hu, hup⟩
      have hveq : v = u := by rw [← hpv, ← hup]
      subst hveq
      have hlen : (doms v).length = p.2 := by rw [← hup]
      refine ⟨hu, ?_⟩
      rw [hlen]
      exact of_decide_eq_true hpeq
    have htied2 : ∀ u ∈ unassignedVars cw a, (doms u).length = first.2 →
        u ∈ ((first :: rest).filter (fun p => decide (p.2 = first.2))).map Prod.fst := by
      intro u hu hlen
      refine List.mem_map.2 ⟨(u, (doms u).length), ?_, rfl⟩
      refine List.mem_filter.2 ⟨hin u hu, ?_⟩
      simpa using hlen
    by_cases hone : (((first :: rest).filter
        (fun p => decide (p.2 = first.2))).map Prod.fst).length = 1
    · rw [if_pos hone]
      rcases List.length_eq_one.1 hone with ⟨t, ht⟩
      rw [ht]
      refine ⟨t, rfl, ?_⟩
      have htu := htied1 t (by rw [ht]; exact List.mem_singleton.2 rfl)
      rcases (unassignedVars_mem cw a t).1 htu.1 with ⟨htvars, htkeys⟩
      refine ⟨htvars, htkeys, ?_, ?_⟩
      · intro u hu hukeys
        rw [htu.2]
        exact hmin u ((unassignedVars_mem cw a u).2 ⟨hu, hukeys⟩)
      · intro u hu hukeys hsize
        have humem : u ∈ ((first :: rest).filter
            (fun p => decide (p.2 = first.2))).map Prod.fst := by
          refine htied2 u ((unassignedVars_mem cw a u).2 ⟨hu, hukeys⟩) ?_
          rw [hsize, htu.2]
        rw [ht] at humem
        rcases List.mem_singleton.1 humem with rfl
        exact Nat.le_refl _
    · rw [if_neg hone]
      have hfirsttied : first.1 ∈ ((first :: rest).filter
          (fun p => decide (p.2 = first.2))).map Prod.fst := by
        refine List.mem_map.2 ⟨first, ?_, rfl⟩
        refine List.mem_filter.2 ⟨List.mem_cons_self first rest, by simp⟩
      have hdegperm : List.Perm
          (List.insertionSort sndLe
            ((((first :: rest).filter (fun p => decide (p.2 = first.2))).map Prod.fst).map
              (fun v => (v, (cw.neighbors v).length))))
          ((((first :: rest).filter (fun p => decide (p.2 = first.2))).map Prod.fst).map
            (fun v => (v, (cw.neighbors v).length))) :=
        List.perm_insertionSort sndLe _
      have hdegsorted : List.Sorted sndLe (List.insertionSort sndLe
          ((((first :: rest).filter (fun p => decide (p.2 = first.2))).map Prod.fst).map
            (fun v => (v, (cw.neighbors v).length)))) :=
        List.sorted_insertionSort sndLe _
      have hdegne : List.insertionSort sndLe
          ((((first :: rest).filter (fun p => decide (p.2 = first.2))).map Prod.fst).map
            (fun v => (v, (cw.neighbors v).length))) ≠ [] := by
        intro hcon
        rw [hcon] at hdegperm
        have := (List.Perm.nil_eq hdegperm).symm
        rcases List.map_eq_nil_iff.1 this with hnil
        rw [hnil] at hfirsttied
        exact absurd hfirsttied (List.not_mem_nil _)
      rw [List.getLast?_map]
      cases hlast : (List.insertionSort sndLe
          ((((first :: rest).filter (fun p => decide (p.2 = first.2))).map Prod.fst).map
            (fun v => (v, (cw.neighbors v).length)))).getLast? with
      | none => exact absurd (List.getLast?_eq_none_iff.1 hlast) hdegne
      | some pr =>
        have hprmem : pr ∈ (((first :: rest).filter
            (fun p => decide (p.2 = first.2))).map Prod.fst).map
              (fun v => (v, (cw.neighbors v).length)) :=
          hdegperm.mem_iff.1 (List.mem_of_mem_getLast? hlast)
        rcases List.mem_map.1 hprmem with ⟨v0, hv0tied, hv0pr⟩
        have hv0 := htied1 v0 hv0tied
        rcases (unassignedVars_mem cw a v0).1 hv0.1 with ⟨hv0vars, hv0keys⟩
        refine ⟨pr.1, by simp, ?_⟩
        have hpr1 : pr.1 = v0 := by rw [← hv0pr]
        rw [hpr1]
        refine ⟨hv0vars, hv0keys, ?_, ?_⟩
        · intro u hu hukeys
          rw [hv0.2]
          exact hmin u ((unassignedVars_mem cw a u).2 ⟨hu, hukeys⟩)
        · intro u hu hukeys hsize
          have hutied : u ∈ ((first :: rest).filter
              (fun p => decide (p.2 = first.2))).map Prod.fst := by
            refine htied2 u ((unassignedVars_mem cw a u).2 ⟨hu, hukeys⟩) ?_
            rw [hsize, hv0.2]
          have humem : (u, (cw.neighbors u).length) ∈ List.insertionSort sndLe
              ((((first :: rest).filter (fun p => decide (p.2 = first.2))).map Prod.fst).map
                (fun v => (v, (cw.neighbors v).length))) :=
            hdegperm.mem_iff.2 (List.mem_map.2 ⟨u, hutied, rfl⟩)
          have := sorted_sndLe_le_getLast _ pr hdegsorted hlast _ humem
          have hpr2 : pr.2 = (cw.neighbors v0).length := by rw [← hv0pr]
          rw [hpr2] at this
          exact this

/-- Witness for C7 at a concrete puzzle with two unassigned variables. -/
theorem select_unassigned_variable_spec_witness :
    ∃ v, select_unassigned_variable cw2 doms2 [] = some v ∧
      v ∈ cw2.vars ∧ v ∉ ([] : Assignment).map Prod.fst ∧
      (∀ u ∈ cw2.vars, u ∉ ([] : Assignment).map Prod.fst →
        (doms2 v).length ≤ (doms2 u).length) ∧
      (∀ u ∈ cw2.vars, u ∉ ([] : Assignment).map Prod.fst →
        (doms2 u).length = (doms2 v).length →
        (cw2.neighbors u).length ≤ (cw2.neighbors v).length) :=
  select_unassigned_variable_spec cw2 doms2 [] (by decide)

/-- C8: ordering the domain of a variable returns a permutation of that
domain, sorted ascending by elimination score (conflicts caused in the
domains of unassigned overlapping variables). -/
theorem order_domain_values_spec (cw : Crossword) (doms : Domains) (var : Variable)
    (a : Assignment) :
    List.Perm (order_domain_values cw doms var a) (doms var) ∧
    (order_domain_values cw doms var a).Pairwise
      (fun w1 w2 => elimScore cw doms a var w1 ≤ elimScore cw doms a var w2) := by
  unfold order_domain_values
  by_cases h : (doms var).length = 1
  · rw [if_pos h]
    rcases List.length_eq_one.1 h with ⟨w, hw⟩
    rw [hw]
    exact ⟨List.Perm.refl _, List.pairwise_singleton _ _⟩
  · rw [if_neg h]
    have hperm : List.Perm
        (List.insertionSort sndLe ((doms var).map (fun w => (w, elimScore cw doms a var w))))
        ((doms var).map (fun w => (w, elimScore cw doms a var w))) :=
      List.perm_insertionSort sndLe _
    constructor
    · have hmapped := hperm.map Prod.fst
      rw [List.map_map] at hmapped
      have hid : List.map (Prod.fst ∘ fun w => (w, elimScore cw doms a var w)) (doms var) =
          doms var := by
        rw [show (Prod.fst ∘ fun w => (w, elimScore cw doms a var w)) = id from rfl,
          List.map_id]
      rw [hid] at hmapped
      exact hmapped
    · have hsorted : List.Sorted sndLe
          (List.insertionSort sndLe
            ((doms var).map (fun w => (w, elimScore cw doms a var w)))) :=
        List.sorted_insertionSort sndLe _
      have hmem : ∀ p ∈ List.insertionSort sndLe
          ((doms var).map (fun w => (w, elimScore cw doms a var w))),
          p.2 = elimScore cw doms a var p.1 := by
        intro p hp
        rcases List.mem_map.1 (hperm.mem_iff.1 hp) with ⟨w, _, hwp⟩
        rw [← hwp]
      refine List.pairwise_map.2 (hsorted.imp_of_mem ?_)
      intro p q hp hq hle
      rw [← hmem p hp, ← hmem q hq]
      exact hle

/-! Lemmas about the backtracking search. -/

theorem tryVals_preserves (cw : Crossword)
    (next : Assignment → Domains → Option Assignment × Domains)
    (hnext : ∀ a2 d2, (next a2 d2).2 = d2) (a : Assignment) (var : Variable) :
    ∀ (vals : List Word) (doms : Domains), (tryVals cw next a var vals doms).2 = doms
  | [], _ => rfl
  | value :: rest, doms => by
    simp only [tryVals]
    by_cases hc : consistent cw (a ++ [(var, value)]) = true
    · rw [if_pos hc]
      rcases hn : next (a ++ [(var, value)]) doms with ⟨o, d2⟩
      have hd2 : d2 = doms := by
        have := hnext (a ++ [(var, value)]) doms
        rw [hn] at this
        exact this
      cases o with
      | some r => exact hd2
      | none =>
        rw [hd2]
        exact tryVals_preserves cw next hnext a var rest doms
    · rw [if_neg hc]
      exact tryVals_preserves cw next hnext a var rest doms

theorem backtrackFuel_preserves (cw : Crossword) :
    ∀ (fuel : Nat) (a : Assignment) (doms : Domains),
      (backtrackFuel cw fuel a doms).2 = doms
  | 0, _, _ => rfl
  | fuel + 1, a, doms => by
    simp only [backtrackFuel]
    by_cases hc : assignment_complete cw a = true
    · rw [if_pos hc]
    · rw [if_neg hc]
      cases select_unassigned_variable cw doms a with
      | none => rfl
      | some var =>
        exact tryVals_preserves cw _ (fun a2 d2 => backtrackFuel_preserves cw fuel a2 d2)
          a var _ doms

/-- C9: `backtrack` returns the domain store it was given, unchanged — the
search phase only reads shared domains; trial assignments are fresh copies
(`a ++ [(var, value)]`) of the assignment argument, which is itself a value
never mutated. -/
theorem backtrack_preserves_domains (cw : Crossword) (a : Assignment) (doms : Domains) :
    (backtrack cw a doms).2 = doms :=
  backtrackFuel_preserves cw (cw.vars.length + 1) a doms

theorem select_mem (cw : Crossword) (doms : Domains) (a : Assignment) (v : Variable)
    (h : select_unassigned_variable cw doms a = some v) : v ∈ unassignedVars cw a := by
  rw [select_eq] at h
  cases hs : List.insertionSort sndLe
      ((unassignedVars cw a).map (fun v => (v, (doms v).length))) with
  | nil =>
    rw [hs] at h
    exact absurd h (by simp)
  | cons first rest =>
    rw [hs] at h
    dsimp only at h
    have hperm : List.Perm (first :: rest)
        ((unassignedVars cw a).map (fun v => (v, (doms v).length))) := by
      rw [← hs]
      exact List.perm_insertionSort sndLe _
    have htied : ∀ u, u ∈ ((first :: rest).filter
        (fun p => decide (p.2 = first.2))).map Prod.fst → u ∈ unassignedVars cw a := by
      intro u hu
      rcases List.mem_map.1 hu with ⟨p, hpf, hpu⟩
      have hpmem : p ∈ first :: rest := (List.mem_filter.1 hpf).1
      rcases List.mem_map.1 (hperm.mem_iff.1 hpmem) with ⟨u2, hu2, hu2p⟩
      have : p.1 = u2 := by rw [← hu2p]
      rw [← hpu, this]
      exact hu2
    by_cases hone : (((first :: rest).filter
        (fun p => decide (p.2 = first.2))).map Prod.fst).length = 1
    · rw [if_pos hone] at h
      exact htied v (List.mem_of_mem_head? h)
    · rw [if_neg hone] at h
      rw [List.getLast?_map] at h
      cases hl : (List.insertionSort sndLe
          ((((first :: rest).filter (fun p => decide (p.2 = first.2))).map Prod.fst).map
            (fun v => (v, (cw.neighbors v).length)))).getLast? with
      | none =>
        rw [hl] at h
        exact absurd h (by simp)
      | some pr =>
        rw [hl] at h
        have hv : pr.1 = v := by simpa using h
        have hprmem : pr ∈ (((first :: rest).filter
            (fun p => decide (p.2 = first.2))).map Prod.fst).map
              (fun v => (v, (cw.neighbors v).length)) :=
          (List.perm_insertionSort sndLe _).mem_iff.1 (List.mem_of_mem_getLast? hl)
        rcases List.mem_map.1 hprmem with ⟨u, hu, hupr⟩
        have : pr.1 = u := by rw [← hupr]
        rw [← hv, this]
        exact htied u hu

theorem goodKeys_extend (cw : Crossword) (a : Assignment) (var : Variable) (value : Word)
    (hg : goodKeys cw a) (hvar : var ∈ cw.vars) (hnot : var ∉ a.map Prod.fst) :
    goodKeys cw (a ++ [(var, value)]) := by
  constructor
  · rw [List.map_append, List.nodup_append]
    refine ⟨hg.1, by simp, ?_⟩
    intro x hx hx2
    simp only [List.map_cons, List.map_nil, List.mem_singleton] at hx2
    rw [hx2] at hx
    exact hnot hx
  · intro p hp
    rcases List.mem_append.1 hp with hp1 | hp2
    · exact hg.2 p hp1
    · rcases List.mem_singleton.1 hp2 with rfl
      exact hvar

theorem tryVals_sound (cw : Crossword)
    (next : Assignment → Domains → Option Assignment × Domains)
    (a : Assignment) (var : Variable) (r : Assignment)
    (hnext : ∀ a2 d2 d3 r2, goodKeys cw a2 → consistent cw a2 = true →
      next a2 d2 = (some r2, d3) →
      goodKeys cw r2 ∧ consistent cw r2 = true ∧ assignment_complete cw r2 = true)
    (hg : goodKeys cw a) (hvar : var ∈ cw.vars) (hnot : var ∉ a.map Prod.fst) :
    ∀ (vals : List Word) (doms dfin : Domains),
      tryVals cw next a var vals doms = (some r, dfin) →
      goodKeys cw r ∧ consistent cw r = true ∧ assignment_complete cw r = true
  | [], doms, dfin, h => by simp [tryVals] at h
  | value :: rest, doms, dfin, h => by
    simp only [tryVals] at h
    by_cases hc : consistent cw (a ++ [(var, value)]) = true
    · rw [if_pos hc] at h
      rcases hn : next (a ++ [(var, value)]) doms with ⟨o, d2⟩
      rw [hn] at h
      cases o with
      | some r2 =>
        have heq : r2 = r := by
          simpa using congrArg Prod.fst h
        rw [← heq]
        exact (hnext (a ++ [(var, value)]) doms d2 r2
          (goodKeys_extend cw a var value hg hvar hnot) hc hn).imp id id
      | none =>
        exact tryVals_sound cw next a var r hnext hg hvar hnot rest d2 dfin h
    · rw [if_neg hc] at h
      exact tryVals_sound cw next a var r hnext hg hvar hnot rest doms dfin h

theorem backtrackFuel_sound (cw : Crossword) :
    ∀ (fuel : Nat) (a : Assignment) (doms dfin : Domains) (r : Assignment),
      goodKeys cw a → consistent cw a = true →
      backtrackFuel cw fuel a doms = (some r, dfin) →
      goodKeys cw r ∧ consistent cw r = true ∧ assignment_complete cw r = true
  | 0, a, doms, dfin, r, _, _, h => by simp [backtrackFuel] at h
  | fuel + 1, a, doms, dfin, r, hg, hc, h => by
    simp only [backtrackFuel] at h
    by_cases hcomp : assignment_complete cw a = true
    · rw [if_pos hcomp] at h
      have : a = r := by simpa using congrArg Prod.fst h
      rw [← this]
      exact ⟨hg, hc, hcomp⟩
    · rw [if_neg hcomp] at h
      cases hsel : select_unassigned_variable cw doms a with
      | none =>
        rw [hsel] at h
        simp at h
      | some var =>
        rw [hsel] at h
        have hmem := (unassignedVars_mem cw a var).1 (select_mem cw doms a var hsel)
        exact tryVals_sound cw _ a var r
          (fun a2 d2 d3 r2 hg2 hc2 hn =>
            backtrackFuel_sound cw fuel a2 d2 d3 r2 hg2 hc2 hn)
          hg hmem.1 hmem.2 _ doms dfin h

/-- C1: on a puzzle with a symmetric overlap table, `backtrack` started (as
`solve` starts it) on the empty assignment
returns either `none` or an assignment that covers every variable of the
puzzle exactly once and satisfies the three data-model invariants: pairwise
distinct words, length match, and overlap agreement for every ordered pair of
variables with a defined overlap.  It never returns a partial or inconsistent
assignment. -/
theorem backtrack_spec (cw : Crossword) (d0 : Domains) (r : Assignment)
    (hsym : SymmOn cw cw.vars)
    (h : (backtrack cw [] d0).1 = some r) :
    ((r.map Prod.fst).Nodup ∧ (∀ v : Variable, v ∈ r.map Prod.fst ↔ v ∈ cw.vars)) ∧
    (r.map Prod.snd).Pairwise (fun w1 w2 => w1 ≠ w2) ∧
    (∀ p ∈ r, p.2.length = p.1.length) ∧
    (∀ p ∈ r, ∀ q ∈ r, p.1 ≠ q.1 → ∀ k l, cw.overlaps p.1 q.1 = some (k, l) →
      charAt p.2 k = charAt q.2 l) := by
  rcases hb : backtrack cw [] d0 with ⟨o, d⟩
  rw [hb] at h
  dsimp only at h
  subst h
  have hgood : goodKeys cw ([] : Assignment) :=
    ⟨by simp, fun p hp => absurd hp (List.not_mem_nil p)⟩
  have hbf : backtrackFuel cw (cw.vars.length + 1) [] d0 = (some r, d) := hb
  rcases backtrackFuel_sound cw (cw.vars.length + 1) [] d0 d r hgood rfl hbf with
    ⟨hgk, hcons2, hcomp⟩
  have hsub : (r.map Prod.fst) ⊆ cw.vars := by
    intro v hv
    rcases List.mem_map.1 hv with ⟨p, hp, hpv⟩
    rw [← hpv]
    exact hgk.2 p hp
  have hsp := List.subperm_of_subset hgk.1 hsub
  have hlen : cw.vars.length ≤ (r.map Prod.fst).length := by
    rw [List.length_map]
    rw [show r.length = cw.vars.length from of_decide_eq_true hcomp]
  have hperm := hsp.perm_of_length_le hlen
  have hcc := (consistent_iff_core cw r).1 hcons2
  have hsymr : SymmOn cw (r.map Prod.fst) :=
    fun x hx y hy => hsym x (hsub hx) y (hsub hy)
  have hpairs := (pairwise_overlap_symm cw r hgk.1 hsymr).1 hcc.2.2
  exact ⟨⟨hgk.1, fun v => hperm.mem_iff⟩, hcc.1, fun p hp => (hcc.2.1 p hp).symm, hpairs⟩

/-- Witness for C1: the one-variable puzzle `cw1` is solved by the complete
assignment mapping its variable to "cat". -/
theorem backtrack_spec_witness :
    (([(varD, wordCat)].map Prod.fst).Nodup ∧
      (∀ v : Variable, v ∈ [(varD, wordCat)].map Prod.fst ↔ v ∈ cw1.vars)) ∧
    ([(varD, wordCat)].map Prod.snd).Pairwise (fun w1 w2 => w1 ≠ w2) ∧
    (∀ p ∈ [(varD, wordCat)], p.2.length = p.1.length) ∧
    (∀ p ∈ [(varD, wordCat)], ∀ q ∈ [(varD, wordCat)], p.1 ≠ q.1 →
      ∀ k l, cw1.overlaps p.1 q.1 = some (k, l) → charAt p.2 k = charAt q.2 l) :=
  backtrack_spec cw1 doms1 [(varD, wordCat)] (by decide) (by decide)

/-! Lemmas about the AC-3 worklist loop. -/

theorem revise_shrink (cw : Crossword) (doms : Domains) (x y v : Variable) (w : Word)
    (h : w ∈ (revise cw doms x y).2 v) : w ∈ doms v := by
  unfold revise at h
  cases hov : cw.overlaps x y with
  | none =>
    rw [hov] at h
    exact h
  | some kl =>
    rw [hov] at h
    dsimp only at h
    split at h
    · dsimp only at h
      by_cases hv : v = x
      · subst hv
        rw [setDomain_self] at h
        unfold removeWords at h
        exact (List.mem_filter.1 h).1
      · rw [setDomain_frame _ _ _ _ hv] at h
        exact h
    · exact h

theorem ac3Fuel_shrink (cw : Crossword) :
    ∀ (fuel : Nat) (arcs : List Arc) (doms : Domains) (b : Bool) (dfin : Domains),
      ac3Fuel cw fuel arcs doms = some (b, dfin) → ∀ v w, w ∈ dfin v → w ∈ doms v
  | fuel, [], doms, b, dfin, h => by
    cases fuel with
    | zero =>
      simp only [ac3Fuel, Option.some.injEq] at h
      have hd : doms = dfin := congrArg Prod.snd h
      intro v w hw
      rw [hd]
      exact hw
    | succ fuel =>
      simp only [ac3Fuel, Option.some.injEq] at h
      have hd : doms = dfin := congrArg Prod.snd h
      intro v w hw
      rw [hd]
      exact hw
  | 0, (x, y) :: rest, doms, b, dfin, h => by
    simp [ac3Fuel] at h
  | fuel + 1, (x, y) :: rest, doms, b, dfin, h => by
    simp only [ac3Fuel] at h
    rcases hr : revise cw doms x y with ⟨br, doms2⟩
    rw [hr] at h
    have hstep : ∀ v w, w ∈ doms2 v → w ∈ doms v := by
      intro v w hw
      have hsh := revise_shrink cw doms x y v w
      rw [hr] at hsh
      exact hsh hw
    cases br with
    | true =>
      dsimp only at h
      split at h
      · simp only [Option.some.injEq] at h
        have hd : doms2 = dfin := congrArg Prod.snd h
        intro v w hw
        refine hstep v w ?_
        rw [hd]
        exact hw
      · intro v w hw
        exact hstep v w
          (ac3Fuel_shrink cw fuel (enqueueArcs cw x y rest) doms2 b dfin h v w hw)
    | false =>
      dsimp only at h
      intro v w hw
      exact ac3Fuel_shrink cw fuel rest doms b dfin h v w hw

/-- C10: each of the three consistency operations only shrinks domains: every
word present afterwards (for any variable) was present before.  The `ac3`
case covers any initial arc list, including its default queue. -/
theorem domains_only_shrink (cw : Crossword) (doms : Domains) (x y : Variable)
    (arcs : Option (List Arc)) (b : Bool) (dfin : Domains)
    (hac : ac3 cw doms arcs = some (b, dfin)) (v : Variable) (w : Word) :
    (w ∈ enforce_node_consistency cw doms v → w ∈ doms v) ∧
    (w ∈ (revise cw doms x y).2 v → w ∈ doms v) ∧
    (w ∈ dfin v → w ∈ doms v) := by
  refine ⟨?_, revise_shrink cw doms x y v w, ?_⟩
  · intro hw
    rw [enforce_eval] at hw
    split at hw
    · exact (List.mem_filter.1 hw).1
    · exact hw
  · intro hw
    unfold ac3 at hac
    exact ac3Fuel_shrink cw _ _ doms b dfin hac v w hw

/-- Witness for C10 at a concrete puzzle and a concrete successful ac3 run. -/
theorem domains_only_shrink_witness :
    ((wordA ∈ enforce_node_consistency cw2 doms2 varB → wordA ∈ doms2 varB) ∧
     (wordA ∈ (revise cw2 doms2 varA varB).2 varB → wordA ∈ doms2 varB) ∧
     (wordA ∈ doms2 varB → wordA ∈ doms2 varB)) :=
  domains_only_shrink cw2 doms2 varA varB none true doms2 rfl varB wordA

/-- C2 (code bug): the claim fails on the code.  On `cw2` with domains
`varA = {a}`, `varB = {a, b}`, `ac3()` with its default queue returns true
and leaves every domain unchanged, yet the arc (varB, varA) is not
arc-consistent afterwards: re-running revise on it removes "b" from varB's
domain.  The cause is that the default queue holds only one direction per
neighbor pair and the re-enqueue block never adds the reverse arc. -/
theorem ac3_true_without_arc_consistency :
    (ac3 cw2 doms2 none).map (fun p => (p.1, p.2 varA, p.2 varB)) =
      some (true, [wordA], [wordA, wordB]) ∧
    (revise cw2 doms2 varB varA).1 = true ∧
    wordB ∈ doms2 varB ∧ wordB ∉ (revise cw2 doms2 varB varA).2 varB := by
  decide

/-- C3 (code bug): from a state where revise (varA, varB) removes a word and
leaves varA's domain non-empty, the re-enqueue block of ac3 appends the arc
(varA, varC) — x first, neighbor second — not (varC, varA) as the
specification requires for the neighbor varC of varA. -/
theorem ac3_enqueue_orientation :
    (revise cw3 doms3 varA varB).1 = true ∧
    ((revise cw3 doms3 varA varB).2 varA).length ≠ 0 ∧
    enqueueArcs cw3 varA varB [] = [(varA, varC)] := by
  decide

end CrosswordCSP
